import Mathlib

/-!
Verification of the dbt compilation pipeline and dependency linker
(src/dbt/compilation.py): the `Linker` graph wrapper and the `Compiler`
class (reference resolution, model compilation, uniqueness validation,
and the two-phase orchestrator).

Shallow embedding conventions:
* FQNs are lists of path segments (`Fqn`).
* Model descriptors carry the attributes the compiler reads: `name`,
  `fqn`, owning project name, the `enabled` config value
  (`Option Bool`, `none` when the config mapping lacks the key, matching
  Python `config.get('enabled')`), the template body as an interleaving
  of literal text and `ref(...)` invocations, the verdict of the external
  statement-construction step (`stmtResult`), and the output path.
* The external collaborators (templating engine, statement construction,
  discovery) are represented at their interface boundary: rendering is a
  left-to-right fold over the template parts, exactly mirroring the order
  in which jinja evaluates the injected `ref` callable.
* Filesystem effects are recorded as an explicit operation trace
  (`FsOp`); `ensureDir` stands for the create-if-missing pattern
  (`if not os.path.exists(p): os.makedirs(p)`).
* Python exceptions become `Except CompileError`; because the Python
  code mutates the linker in place before raising, our functions return
  the linker state alongside the `Except` result.
-/

deriving instance DecidableEq for Except

/-- A fully-qualified name: an ordered sequence of path segments. -/
abbrev Fqn := List String

/-- Arguments accepted by the injected `ref` callable: one argument
(`name`) or two (`package, name`), mirroring `do_ref(*args)`. -/
inductive RefArgs where
  | unqualified (name : String)
  | qualified (pkg : String) (name : String)
deriving DecidableEq

/-- One piece of a model's template body: literal text, or a `ref(...)`
invocation that the rendering engine evaluates in order. -/
inductive TemplatePart where
  | text (s : String)
  | ref (args : RefArgs)
deriving DecidableEq

/-- A model/analysis descriptor, carrying exactly the attributes that
`compilation.py` reads from a `Source` model object. `stmtResult` is the
verdict of the external statement-construction step
(`model.compile(...)`): `some stmt` to emit, `none` to decline. -/
structure Model where
  name : String
  fqn : Fqn
  projectName : String
  enabled : Option Bool
  template : List TemplatePart
  stmtResult : Option String
  buildPath : String
deriving DecidableEq

/-- The error taxonomy raised by `compilation.py` (all are Python
`RuntimeError`s; the constructor arguments record what each message
names). -/
inductive CompileError where
  | referenceNotFound (name : String) (ns : String)
  | ambiguousReference (name : String) (ns : String) (count : Nat) (found : List Model)
  | duplicateModelName (name : String)
  | cyclicDependency
deriving DecidableEq

/-- The `Linker`: a directed graph with insertion-ordered node and edge
lists (embedding `networkx.DiGraph` as used here). -/
structure Linker where
  nodes : List Fqn
  edges : List (Fqn × Fqn)
deriving DecidableEq

def Linker.empty : Linker := ⟨[], []⟩

/-- `Linker.add_node` / `DiGraph.add_node`: idempotent insertion. -/
def Linker.addNode (L : Linker) (n : Fqn) : Linker :=
  if n ∈ L.nodes then L else { L with nodes := L.nodes ++ [n] }

/-- `DiGraph.add_edge`: idempotent insertion of a directed edge
`(from, to)`. -/
def Linker.addEdge (L : Linker) (e : Fqn × Fqn) : Linker :=
  if e ∈ L.edges then L else { L with edges := L.edges ++ [e] }

/-- `Linker.dependency(node1, node2)`: "node1 depends on node2" — adds
both nodes, then the edge node2 → node1. -/
def Linker.dependency (L : Linker) (node1 node2 : Fqn) : Linker :=
  ((L.addNode node1).addNode node2).addEdge (node2, node1)

/-- The compiler's ambient data: `schema` is `ctx['env']['schema']` from
the rendering context, `modelName` and `label` come from the
`create_template` adapter, and the two paths are the project options
`target-path` and `modules-path`. -/
structure Compiler where
  schema : String
  modelName : String → String
  label : String
  targetPath : String
  modulesPath : String

/-- Python truthiness of `config.get('enabled')`: missing key (`none`)
is falsy. -/
def truthy : Option Bool → Bool
  | none => false
  | some b => b

/-- The membership test of the `find_model_by_name` loop: terminal name
matches, and, when a package namespace is supplied, the owning project
name matches it. -/
def matchesRef (name : String) (ns : Option String) (m : Model) : Bool :=
  m.name == name && (ns.isNone || ns == some m.projectName)

/-- `Compiler.find_model_by_name` (lines 91-106): linear scan collecting
matches, then the zero/one/many trichotomy. -/
def findModelByName (pool : List Model) (name : String) (ns : Option String) :
    Except CompileError Model :=
  match pool.filter (matchesRef name ns) with
  | [] => .error (.referenceNotFound name (ns.getD "ANY"))
  | [m] => .ok m
  | m1 :: m2 :: rest =>
      .error (.ambiguousReference name (ns.getD "ANY")
        (m1 :: m2 :: rest).length (m1 :: m2 :: rest))

def refName : RefArgs → String
  | .unqualified n => n
  | .qualified _ n => n

def refNs : RefArgs → Option String
  | .unqualified _ => none
  | .qualified p _ => some p

/-- The backend-quoted reference text `'"{}"."{}"'.format(schema, name)`. -/
def refString (schema name : String) : String :=
  "\"" ++ schema ++ "\".\"" ++ name ++ "\""

/-- The body of `do_ref` (lines 115-129): resolve, derive the output FQN
by substituting the rendered name for the last segment, register the
edge output-FQN → source-FQN, and return the quoted reference text. -/
def doRef (c : Compiler) (L : Linker) (src : Fqn) (pool : List Model) (a : RefArgs) :
    Except CompileError (Linker × String) :=
  match findModelByName pool (refName a) (refNs a) with
  | .error e => .error e
  | .ok other =>
      let rendered := c.modelName (refName a)
      let otherFqn := other.fqn.dropLast ++ [rendered]
      .ok (L.dependency src otherFqn, refString c.schema rendered)

/-- Template rendering: evaluate the parts left to right, splicing each
successful `ref` result into the output; a failed resolution aborts,
keeping the linker mutations made so far (Python raises mid-render). -/
def renderParts (c : Compiler) (src : Fqn) (pool : List Model) :
    Linker → List TemplatePart → Linker × Except CompileError String
  | L, [] => (L, .ok "")
  | L, TemplatePart.text s :: rest =>
      match renderParts c src pool L rest with
      | (L', .ok r) => (L', .ok (s ++ r))
      | (L', .error e) => (L', .error e)
  | L, TemplatePart.ref a :: rest =>
      match doRef c L src pool a with
      | .error e => (L, .error e)
      | .ok (L₁, out) =>
          match renderParts c src pool L₁ rest with
          | (L', .ok r) => (L', .ok (out ++ r))
          | (L', .error e) => (L', .error e)

/-- Filesystem effects performed by the compiler, as a trace. -/
inductive FsOp where
  | ensureDir (path : String)
  | writeFile (path : String) (payload : String)
  | writeGraph (path : String) (graph : Linker)
deriving DecidableEq

/-- `os.path.join` for the relative paths used here. -/
def pathJoin (a b : String) : String := a ++ "/" ++ b

/-- `os.path.dirname`: everything before the final separator (empty when
there is none). -/
def dirname (p : String) : String :=
  String.mk ((((p.data.reverse).dropWhile (fun ch => !(ch == '/'))).drop 1).reverse)

/-- `Compiler.__write`: create the parent directory if missing, then
write the payload at target-path/build_filepath. -/
def writeOps (c : Compiler) (buildFilepath payload : String) : List FsOp :=
  let target := pathJoin c.targetPath buildFilepath
  [FsOp.ensureDir (dirname target), FsOp.writeFile target payload]

/-- `Compiler.compile_model` (lines 133-153): disabled check first, then
node registration at `__ref` construction, rendering, statement
construction, and the conditional write. Returns the linker (mutated in
place in Python), the filesystem trace, and the Python return value
(`none` ↦ `None`, `some true` ↦ `True`, `some false` ↦ `False`). -/
def compileModel (c : Compiler) (L : Linker) (m : Model) (pool : List Model) :
    Linker × List FsOp × Except CompileError (Option Bool) :=
  if truthy m.enabled then
    let res := renderParts c m.fqn pool (L.addNode m.fqn) m.template
    match res.2 with
    | .error e => (res.1, [], .error e)
    | .ok _ =>
        match m.stmtResult with
        | some stmt => (res.1, writeOps c m.buildPath stmt, .ok (some true))
        | none => (res.1, [], .ok (some false))
  else (L, [], .ok none)

/-- `Compiler.validate_models_unique` (lines 66-73): walk the pool with
a set of seen terminal names, failing on the first repeat. -/
def validateModelsUnique : List Model → List String → Except CompileError Unit
  | [], _ => .ok ()
  | m :: rest, seen =>
      if m.name ∈ seen then .error (.duplicateModelName m.name)
      else validateModelsUnique rest (m.name :: seen)

/-- One compilation loop of `Compiler.compile`: fold `compile_model`
over the worklist, counting models whose return value is truthy
(`True`), accumulating the filesystem trace, and aborting on the first
exception. -/
def compileList (c : Compiler) :
    Linker → List FsOp → Nat → List Model → List Model →
    Linker × List FsOp × Except CompileError Nat
  | L, ops, n, _, [] => (L, ops, .ok n)
  | L, ops, n, pool, m :: rest =>
      match compileModel c L m pool with
      | (L', mops, .error e) => (L', ops ++ mops, .error e)
      | (L', mops, .ok r) =>
          compileList c L' (ops ++ mops) (if r = some true then n + 1 else n) pool rest

/-- The post-validation part of `Compiler.compile`: compile every model
against a fresh model linker, persist that graph, then compile the
analyses against a second fresh linker — with the *model* pool as the
reference candidates — without persisting the analysis graph. -/
def compilePhase (c : Compiler) (models analyses : List Model) :
    List FsOp × Except CompileError (Nat × Nat) :=
  match compileList c Linker.empty [] 0 models models with
  | (_, ops, .error e) => (ops, .error e)
  | (mlinker, ops, .ok nm) =>
      let gpath := pathJoin c.targetPath ("graph-" ++ c.label ++ ".yml")
      let ops := ops ++ [FsOp.writeGraph gpath mlinker]
      match compileList c Linker.empty [] 0 models analyses with
      | (_, aops, .error e) => (ops ++ aops, .error e)
      | (_, aops, .ok na) => (ops ++ aops, .ok (nm, na))

/-- `Compiler.compile` (lines 160-185), with discovery represented at
its interface boundary: `primary` is the primary project's model list
and `deps` the model lists of the one-level dependency projects, in
discovery order; `analyses` come from the primary project only.
Validation runs before any model is compiled or file written. -/
def compileAll (c : Compiler) (primary : List Model) (deps : List (List Model))
    (analyses : List Model) : List FsOp × Except CompileError (Nat × Nat) :=
  let models := primary ++ deps.flatten
  match validateModelsUnique models [] with
  | .error e => ([], .error e)
  | .ok _ => compilePhase c models analyses

/-- `Compiler.initialize` (lines 41-46): create-if-missing for the
target and modules directories. It is a separate method; `compile` does
not invoke it. -/
def initDirs (c : Compiler) : List FsOp :=
  [FsOp.ensureDir c.targetPath, FsOp.ensureDir c.modulesPath]

/-- A node is ready for removal in Kahn's algorithm when no edge from a
still-remaining node points at it. -/
def kahnReady (edges : List (Fqn × Fqn)) (rem : List Fqn) (v : Fqn) : Bool :=
  !(edges.any fun e => decide (e.2 = v) && decide (e.1 ∈ rem))

/-- Modelled from the spec: the topological-sort algorithm behind
`Linker.as_dependency_list` lives in the external `networkx` library
(`nx.topological_sort`), not under src/. Following §4.1 of the spec
("returns all nodes (or only `subset`, if given) ordered so that for
every edge `u→v`, `u` precedes `v`; fails with a cycle error if the
graph restricted to the relevant nodes is not a DAG"), we use Kahn's
algorithm: repeatedly emit the first remaining node with no incoming
edge from a remaining node, failing with `cyclicDependency` when none
exists. -/
def kahn (edges : List (Fqn × Fqn)) : Nat → List Fqn → Except CompileError (List Fqn)
  | 0, rem => if rem.isEmpty then .ok [] else .error .cyclicDependency
  | fuel + 1, rem =>
      if rem.isEmpty then .ok []
      else
        match rem.find? (kahnReady edges rem) with
        | none => .error .cyclicDependency
        | some w => (kahn edges fuel (rem.erase w)).map (fun order => w :: order)

/-- Restrict an edge list to the relevant node set. -/
def restrictEdges (edges : List (Fqn × Fqn)) (rel : List Fqn) : List (Fqn × Fqn) :=
  edges.filter fun e => decide (e.1 ∈ rel) && decide (e.2 ∈ rel)

/-- `Linker.as_dependency_list(limit_to)` (lines 18-19), modelled from
the spec (see `kahn`): topologically order the whole node set, or only
`limitTo` when given. -/
def asDependencyList (L : Linker) (limitTo : Option (List Fqn)) :
    Except CompileError (List Fqn) :=
  let rel := limitTo.getD L.nodes
  kahn (restrictEdges L.edges rel) rel.length rel

/-- A directed cycle: a nonempty node list in which every node has an
edge to its cyclic successor. -/
def IsCycle (edges : List (Fqn × Fqn)) (c : List Fqn) : Prop :=
  c ≠ [] ∧ ∀ i : Fin c.length,
    (c.get i, c.get ⟨(i.val + 1) % c.length, Nat.mod_lt _ i.pos⟩) ∈ edges

instance (edges : List (Fqn × Fqn)) (c : List Fqn) : Decidable (IsCycle edges c) := by
  unfold IsCycle; infer_instance

/-! ## Basic linker lemmas -/

lemma Linker.addNode_edges (L : Linker) (n : Fqn) : (L.addNode n).edges = L.edges := by
  unfold Linker.addNode; split <;> rfl

lemma Linker.addEdge_nodes (L : Linker) (e : Fqn × Fqn) : (L.addEdge e).nodes = L.nodes := by
  unfold Linker.addEdge; split <;> rfl

lemma Linker.mem_addNode (L : Linker) (n x : Fqn) (h : x ∈ L.nodes) :
    x ∈ (L.addNode n).nodes := by
  unfold Linker.addNode; split
  · exact h
  · simp [h]

lemma Linker.self_mem_addNode (L : Linker) (n : Fqn) : n ∈ (L.addNode n).nodes := by
  unfold Linker.addNode; split
  · assumption
  · simp

lemma Linker.mem_dependency_nodes (L : Linker) (a b x : Fqn) (h : x ∈ L.nodes) :
    x ∈ (L.dependency a b).nodes := by
  unfold Linker.dependency
  rw [Linker.addEdge_nodes]
  exact Linker.mem_addNode _ _ _ (Linker.mem_addNode _ _ _ h)

lemma Linker.dependency_edges (L : Linker) (a b : Fqn) :
    (L.dependency a b).edges =
      if (b, a) ∈ L.edges then L.edges else L.edges ++ [(b, a)] := by
  have h : ((L.addNode a).addNode b).edges = L.edges := by
    rw [Linker.addNode_edges, Linker.addNode_edges]
  unfold Linker.dependency Linker.addEdge
  rw [h]
  split <;> simp [h]

lemma Linker.mem_dependency_edges (L : Linker) (a b : Fqn) :
    (b, a) ∈ (L.dependency a b).edges := by
  rw [Linker.dependency_edges]; split
  · assumption
  · simp

lemma Linker.dependency_edges_subset (L : Linker) (a b : Fqn) :
    ∀ e ∈ (L.dependency a b).edges, e ∈ L.edges ∨ e = (b, a) := by
  rw [Linker.dependency_edges]; split
  · exact fun e he => .inl he
  · intro e he
    rcases List.mem_append.1 he with h | h
    · exact .inl h
    · simp only [List.mem_singleton] at h
      exact .inr h

/-! ## Shared example fixtures for witnesses and counterexamples -/

def cEx : Compiler :=
  { schema := "analytics", modelName := fun s => s, label := "test",
    targetPath := "target", modulesPath := "modules" }

def wA : Model :=
  { name := "a", fqn := ["p1", "a"], projectName := "p1", enabled := some true,
    template := [], stmtResult := none, buildPath := "a.sql" }

def wA2 : Model :=
  { name := "a", fqn := ["p2", "a"], projectName := "p2", enabled := some true,
    template := [], stmtResult := none, buildPath := "a.sql" }

def wB : Model :=
  { name := "b", fqn := ["p1", "b"], projectName := "p1", enabled := some true,
    template := [], stmtResult := none, buildPath := "b.sql" }

/-! ## C1: reference-resolution trichotomy -/

/-- Claim C1: over any candidate pool, `find_model_by_name` fails with
`referenceNotFound` (naming the target and the namespace searched, "ANY"
when unqualified) when zero candidates match the terminal name and
optional package namespace; fails with `ambiguousReference` (naming the
target, the namespace, the match count, and the matching candidates)
when more than one matches; and returns the candidate when exactly one
matches. -/
theorem findModelByName_trichotomy (pool : List Model) (name : String) (ns : Option String) :
    (pool.filter (matchesRef name ns) = [] →
      findModelByName pool name ns = .error (.referenceNotFound name (ns.getD "ANY"))) ∧
    (∀ m, pool.filter (matchesRef name ns) = [m] → findModelByName pool name ns = .ok m) ∧
    (2 ≤ (pool.filter (matchesRef name ns)).length →
      findModelByName pool name ns =
        .error (.ambiguousReference name (ns.getD "ANY")
          (pool.filter (matchesRef name ns)).length (pool.filter (matchesRef name ns)))) := by
  refine ⟨?_, ?_, ?_⟩
  · intro h; simp [findModelByName, h]
  · intro m h; simp [findModelByName, h]
  · intro h
    rcases hf : pool.filter (matchesRef name ns) with _ | ⟨m1, _ | ⟨m2, rest⟩⟩
    · rw [hf] at h; simp at h
    · rw [hf] at h; simp at h
    · simp [findModelByName, hf]

theorem findModelByName_trichotomy_witness :
    findModelByName [wA] "zz" none = .error (.referenceNotFound "zz" "ANY") ∧
    findModelByName [wA, wB] "a" none = .ok wA ∧
    findModelByName [wA, wA2] "a" none = .error (.ambiguousReference "a" "ANY" 2 [wA, wA2]) :=
  ⟨(findModelByName_trichotomy [wA] "zz" none).1 (by decide),
   (findModelByName_trichotomy [wA, wB] "a" none).2.1 wA (by decide),
   (findModelByName_trichotomy [wA, wA2] "a" none).2.2 (by decide)⟩

/-! ## C2: the ref callable registers one edge and returns the quoted text -/

lemma doRef_of_found (c : Compiler) (L : Linker) (src : Fqn) (pool : List Model)
    (a : RefArgs) (m : Model) (h : findModelByName pool (refName a) (refNs a) = .ok m) :
    doRef c L src pool a =
      .ok (L.dependency src (m.fqn.dropLast ++ [c.modelName (refName a)]),
        refString c.schema (c.modelName (refName a))) := by
  unfold doRef; rw [h]

/-- Claim C2: when the injected ref callable resolves to a model `m`, it
adds exactly one directed edge, from `m`'s output FQN (`m`'s FQN with
the last segment replaced by the rendered name) to the source model's
FQN, and it returns `"<schema>"."<rendered-name>"` with the schema taken
from the rendering context's env settings; rendering splices exactly
this text into the template output. -/
theorem ref_adds_edge_and_returns_quoted (c : Compiler) (L : Linker) (src : Fqn)
    (pool : List Model) (a : RefArgs) (m : Model)
    (h : findModelByName pool (refName a) (refNs a) = .ok m) :
    doRef c L src pool a =
      .ok (L.dependency src (m.fqn.dropLast ++ [c.modelName (refName a)]),
        refString c.schema (c.modelName (refName a))) ∧
    (m.fqn.dropLast ++ [c.modelName (refName a)], src) ∈
      (L.dependency src (m.fqn.dropLast ++ [c.modelName (refName a)])).edges ∧
    (∀ e ∈ (L.dependency src (m.fqn.dropLast ++ [c.modelName (refName a)])).edges,
      e ∈ L.edges ∨ e = (m.fqn.dropLast ++ [c.modelName (refName a)], src)) ∧
    renderParts c src pool L [TemplatePart.ref a] =
      (L.dependency src (m.fqn.dropLast ++ [c.modelName (refName a)]),
        .ok (refString c.schema (c.modelName (refName a)))) := by
  refine ⟨doRef_of_found c L src pool a m h, Linker.mem_dependency_edges _ _ _,
    Linker.dependency_edges_subset _ _ _, ?_⟩
  simp [renderParts, doRef_of_found c L src pool a m h, String.append_empty]

/-! ## Validation lemmas for C3 -/

lemma validate_ok_of (models : List Model) :
    ∀ seen : List String, (models.map Model.name).Nodup →
      (∀ m ∈ models, m.name ∉ seen) → validateModelsUnique models seen = .ok () := by
  induction models with
  | nil => intro seen _ _; rfl
  | cons m rest ih =>
    intro seen hnd hs
    rw [List.map_cons, List.nodup_cons] at hnd
    have hm : m.name ∉ seen := hs m (List.mem_cons_self m rest)
    rw [validateModelsUnique, if_neg hm]
    refine ih (m.name :: seen) hnd.2 ?_
    intro m' hm'
    intro hc
    rcases List.mem_cons.1 hc with heq | hin
    · exact hnd.1 (heq ▸ List.mem_map_of_mem Model.name hm')
    · exact hs m' (List.mem_cons_of_mem m hm') hin

lemma validate_ok_nodup (models : List Model) :
    ∀ seen : List String, validateModelsUnique models seen = .ok () →
      (models.map Model.name).Nodup ∧ ∀ m ∈ models, m.name ∉ seen := by
  induction models with
  | nil => intro seen _; exact ⟨List.nodup_nil, by simp⟩
  | cons m rest ih =>
    intro seen h
    rw [validateModelsUnique] at h
    split at h
    · exact absurd h (by simp)
    · rename_i hms
      obtain ⟨hnd, hs⟩ := ih (m.name :: seen) h
      refine ⟨?_, ?_⟩
      · rw [List.map_cons, List.nodup_cons]
        refine ⟨?_, hnd⟩
        intro hc
        obtain ⟨m', hm', hname⟩ := List.mem_map.1 hc
        exact hs m' hm' (hname ▸ List.mem_cons_self m.name seen)
      · intro m' hm'
        rcases List.mem_cons.1 hm' with rfl | hin
        · exact hms
        · exact fun hc => hs m' hin (List.mem_cons_of_mem m.name hc)

lemma validate_error_mem (n : String) (models : List Model) :
    ∀ seen : List String,
      validateModelsUnique models seen = .error (.duplicateModelName n) →
      n ∈ models.map Model.name := by
  induction models with
  | nil => intro seen h; exact absurd h (by simp [validateModelsUnique])
  | cons m rest ih =>
    intro seen h
    rw [validateModelsUnique] at h
    split at h
    · simp only [Except.error.injEq, CompileError.duplicateModelName.injEq] at h
      rw [List.map_cons]
      exact h ▸ List.mem_cons_self m.name (rest.map Model.name)
    · exact List.mem_cons_of_mem m.name (ih (m.name :: seen) h)

lemma validate_trichotomy (models : List Model) :
    ∀ seen : List String, validateModelsUnique models seen = .ok () ∨
      ∃ n, validateModelsUnique models seen = .error (.duplicateModelName n) ∧
        (n ∈ seen ∨ 2 ≤ (models.map Model.name).count n) := by
  induction models with
  | nil => intro seen; exact .inl rfl
  | cons m rest ih =>
    intro seen
    by_cases hm : m.name ∈ seen
    · exact .inr ⟨m.name, by rw [validateModelsUnique, if_pos hm], .inl hm⟩
    · rw [validateModelsUnique, if_neg hm]
      rcases ih (m.name :: seen) with hok | ⟨n, he, hca⟩
      · exact .inl hok
      · refine .inr ⟨n, he, ?_⟩
        rcases hca with hseen | hcount
        · rcases List.mem_cons.1 hseen with heq | hseen'
          · right
            have hmem := validate_error_mem n rest (m.name :: seen) he
            have hpos : 0 < (rest.map Model.name).count n := List.count_pos_iff.2 hmem
            rw [List.map_cons, List.count_cons, heq]
            rw [heq] at hpos
            simp only [beq_self_eq_true, if_true]
            omega
          · exact .inl hseen'
        · right
          rw [List.map_cons, List.count_cons]
          split <;> omega

/-! ## C3: duplicate terminal names abort before any compilation -/

/-- Claim C3: when the discovered candidate pool (primary project plus
one-level dependency projects) contains two models with the same
terminal name, `compile` fails with a `duplicateModelName` error naming
the conflicting model before any model is compiled or any file is
written (the effect trace is empty); when all terminal names are
distinct, validation passes and compilation proceeds to the compilation
phase. -/
theorem compile_duplicate_validation (c : Compiler) (primary : List Model)
    (deps : List (List Model)) (analyses : List Model) :
    (¬ ((primary ++ deps.flatten).map Model.name).Nodup →
      ∃ n, 2 ≤ ((primary ++ deps.flatten).map Model.name).count n ∧
        compileAll c primary deps analyses = ([], .error (.duplicateModelName n))) ∧
    (((primary ++ deps.flatten).map Model.name).Nodup →
      validateModelsUnique (primary ++ deps.flatten) [] = .ok () ∧
      compileAll c primary deps analyses =
        compilePhase c (primary ++ deps.flatten) analyses) := by
  constructor
  · intro hnd
    rcases validate_trichotomy (primary ++ deps.flatten) [] with hok | ⟨n, he, hca⟩
    · exact absurd (validate_ok_nodup (primary ++ deps.flatten) [] hok).1 hnd
    · refine ⟨n, ?_, ?_⟩
      · rcases hca with hseen | hcount
        · exact absurd hseen (List.not_mem_nil n)
        · exact hcount
      · simp [compileAll, he]
  · intro hnd
    have hok := validate_ok_of (primary ++ deps.flatten) [] hnd (by simp)
    exact ⟨hok, by simp [compileAll, hok]⟩

theorem compile_duplicate_validation_witness :
    compileAll cEx [wA, wA2] [] [] = ([], .error (.duplicateModelName "a")) ∧
    compileAll cEx [wA, wB] [] [] = compilePhase cEx ([wA, wB] ++ List.flatten []) [] := by
  constructor
  · obtain ⟨n, hcount, heq⟩ := (compile_duplicate_validation cEx [wA, wA2] [] []).1 (by decide)
    exact (by decide)
  · exact ((compile_duplicate_validation cEx [wA, wB] [] []).2 (by decide)).2

/-! ## C4: every enabled model's FQN is registered as a graph node -/

lemma doRef_ok_nodes (c : Compiler) (L : Linker) (src : Fqn) (pool : List Model)
    (a : RefArgs) (L' : Linker) (out : String)
    (h : doRef c L src pool a = .ok (L', out)) :
    ∀ x ∈ L.nodes, x ∈ L'.nodes := by
  unfold doRef at h
  cases hf : findModelByName pool (refName a) (refNs a) with
  | error e => rw [hf] at h; exact absurd h (by simp)
  | ok other =>
    rw [hf] at h
    simp only [Except.ok.injEq, Prod.mk.injEq] at h
    intro x hx
    rw [← h.1]
    exact Linker.mem_dependency_nodes _ _ _ _ hx

lemma renderParts_nodes (c : Compiler) (src : Fqn) (pool : List Model) :
    ∀ (ps : List TemplatePart) (L : Linker) (x : Fqn), x ∈ L.nodes →
      x ∈ (renderParts c src pool L ps).1.nodes := by
  intro ps
  induction ps with
  | nil => intro L x hx; simpa [renderParts] using hx
  | cons p rest ih =>
    intro L x hx
    cases p with
    | text s =>
      have hmem := ih L x hx
      rcases hr : renderParts c src pool L rest with ⟨L', r⟩
      rw [hr] at hmem
      cases r <;> simp only [renderParts, hr] <;> exact hmem
    | ref a =>
      cases hd : doRef c L src pool a with
      | error e => simp only [renderParts, hd]; exact hx
      | ok pr =>
        rcases pr with ⟨L₁, out⟩
        have h1 : x ∈ L₁.nodes := doRef_ok_nodes c L src pool a L₁ out hd x hx
        have hmem := ih L₁ x h1
        rcases hr : renderParts c src pool L₁ rest with ⟨L', r⟩
        rw [hr] at hmem
        cases r <;> simp only [renderParts, hd, hr] <;> exact hmem

lemma compileModel_fqn_mem (c : Compiler) (L : Linker) (m : Model) (pool : List Model)
    (h : truthy m.enabled = true) : m.fqn ∈ (compileModel c L m pool).1.nodes := by
  have hmem := renderParts_nodes c m.fqn pool m.template (L.addNode m.fqn) m.fqn
    (Linker.self_mem_addNode L m.fqn)
  rcases hr : renderParts c m.fqn pool (L.addNode m.fqn) m.template with ⟨L', r⟩
  rw [hr] at hmem
  cases r <;> cases hs : m.stmtResult <;> simp [compileModel, h, hr, hs] <;> exact hmem

/-- Claim C4: for every enabled model processed by `compile_model`, the
model's raw FQN is registered as a node in the linker's graph (done when
the reference resolver is constructed), regardless of whether any ref is
invoked, whether rendering fails, and whether the statement-construction
step declines to emit output. -/
theorem compileModel_registers_node (c : Compiler) (L : Linker) (m : Model)
    (pool : List Model) (h : truthy m.enabled = true) :
    m.fqn ∈ (compileModel c L m pool).1.nodes :=
  compileModel_fqn_mem c L m pool h

theorem compileModel_registers_node_witness :
    wA.fqn ∈ (compileModel cEx Linker.empty wA [wA]).1.nodes :=
  compileModel_registers_node cEx Linker.empty wA [wA] (by decide)

theorem ref_adds_edge_and_returns_quoted_witness :
    doRef cEx Linker.empty ["p1", "a"] [wA, wB] (RefArgs.unqualified "b") =
      .ok (⟨[["p1", "a"], ["p1", "b"]], [(["p1", "b"], ["p1", "a"])]⟩,
        "\"analytics\".\"b\"") ∧
    renderParts cEx ["p1", "a"] [wA, wB] Linker.empty
        [TemplatePart.ref (RefArgs.unqualified "b")] =
      (⟨[["p1", "a"], ["p1", "b"]], [(["p1", "b"], ["p1", "a"])]⟩,
        .ok "\"analytics\".\"b\"") := by
  have h := ref_adds_edge_and_returns_quoted cEx Linker.empty ["p1", "a"] [wA, wB]
    (RefArgs.unqualified "b") wB (by decide)
  exact ⟨h.1.trans (by decide), h.2.2.2.trans (by decide)⟩

/-! ## C5 and C10: disabled / unconfigured models are skipped with no effects -/

/-- Claim C5: for a model whose config has `enabled` false,
`compile_model` returns no-output (`None`) immediately, leaves the
linker completely unchanged (no node, no edge), performs no rendering,
and writes nothing — the disabled check precedes any graph mutation. -/
theorem compileModel_disabled_frame (c : Compiler) (L : Linker) (m : Model)
    (pool : List Model) (h : m.enabled = some false) :
    compileModel c L m pool = (L, [], .ok none) := by
  simp [compileModel, truthy, h]

theorem compileModel_disabled_frame_witness :
    compileModel cEx Linker.empty
      { name := "d", fqn := ["p1", "d"], projectName := "p1", enabled := some false,
        template := [TemplatePart.ref (RefArgs.unqualified "a")],
        stmtResult := some "SELECT 1", buildPath := "d.sql" } [wA] =
      (Linker.empty, [], .ok none) :=
  compileModel_disabled_frame cEx Linker.empty _ [wA] (by decide)

/-- Claim C10: a model whose config mapping lacks the `enabled` key
entirely (`config.get('enabled')` is `None`, falsy) is treated exactly
like an explicitly disabled model: `compile_model` returns no-output
immediately, with no rendering, no graph mutation, and no filesystem
write. -/
theorem compileModel_missing_enabled_like_disabled (c : Compiler) (L : Linker)
    (m : Model) (pool : List Model) (h : m.enabled = none) :
    compileModel c L m pool = (L, [], .ok none) ∧
    compileModel c L m pool = compileModel c L { m with enabled := some false } pool := by
  constructor
  · simp [compileModel, truthy, h]
  · simp [compileModel, truthy, h]

theorem compileModel_missing_enabled_like_disabled_witness :
    compileModel cEx Linker.empty
      { name := "u", fqn := ["p1", "u"], projectName := "p1", enabled := none,
        template := [TemplatePart.ref (RefArgs.unqualified "a")],
        stmtResult := some "SELECT 1", buildPath := "u.sql" } [wA] =
      (Linker.empty, [], .ok none) :=
  (compileModel_missing_enabled_like_disabled cEx Linker.empty _ [wA] (by decide)).1

/-! ## C6: the resolution pool is NOT filtered to enabled models -/

def wRefA : Model :=
  { name := "a", fqn := ["p", "a"], projectName := "p", enabled := some true,
    template := [TemplatePart.ref (RefArgs.unqualified "b")],
    stmtResult := some "SELECT 1", buildPath := "a.sql" }

def wDisB : Model :=
  { name := "b", fqn := ["p", "b"], projectName := "p", enabled := some false,
    template := [], stmtResult := some "SELECT 2", buildPath := "b.sql" }

/-- Counterexample to claim C6: model `a` (enabled) references the
disabled model `b`; the whole compile run *succeeds* — no
`referenceNotFound` is raised, because `find_model_by_name` searches the
unfiltered discovery pool — and `b`'s output FQN even ends up in the
persisted graph as the target of the registered edge. -/
theorem disabled_ref_resolves_cx :
    findModelByName [wRefA, wDisB] "b" none = .ok wDisB ∧
    compileAll cEx [wRefA, wDisB] [] [] =
      ([FsOp.ensureDir "target", FsOp.writeFile "target/a.sql" "SELECT 1",
        FsOp.writeGraph "target/graph-test.yml"
          ⟨[["p", "a"], ["p", "b"]], [(["p", "b"], ["p", "a"])]⟩],
       .ok (1, 0)) := by
  decide

/-- Claim C6 (amended): a model with config `enabled=false` produces no
output and `compile_model` registers nothing for it, but reference
resolution searches the *unfiltered* pool: a reference to the disabled
model resolves successfully (no `referenceNotFound`) and registers a
dependency edge to its output FQN, which therefore appears in the
graph. -/
theorem disabled_model_unfiltered_pool (c : Compiler) (L : Linker) (pool : List Model)
    (m : Model) (a : RefArgs) (src : Fqn)
    (hdis : m.enabled = some false)
    (hfind : findModelByName pool (refName a) (refNs a) = .ok m) :
    compileModel c L m pool = (L, [], .ok none) ∧
    doRef c L src pool a =
      .ok (L.dependency src (m.fqn.dropLast ++ [c.modelName (refName a)]),
        refString c.schema (c.modelName (refName a))) ∧
    (m.fqn.dropLast ++ [c.modelName (refName a)], src) ∈
      (L.dependency src (m.fqn.dropLast ++ [c.modelName (refName a)])).edges :=
  ⟨by simp [compileModel, truthy, hdis],
   doRef_of_found c L src pool a m hfind,
   Linker.mem_dependency_edges _ _ _⟩

theorem disabled_model_unfiltered_pool_witness :
    compileModel cEx Linker.empty wDisB [wRefA, wDisB] = (Linker.empty, [], .ok none) ∧
    doRef cEx Linker.empty ["p", "a"] [wRefA, wDisB] (RefArgs.unqualified "b") =
      .ok (⟨[["p", "a"], ["p", "b"]], [(["p", "b"], ["p", "a"])]⟩,
        "\"analytics\".\"b\"") := by
  have h := disabled_model_unfiltered_pool cEx Linker.empty [wRefA, wDisB] wDisB
    (RefArgs.unqualified "b") ["p", "a"] (by decide) (by decide)
  exact ⟨h.1, h.2.1.trans (by decide)⟩

/-! ## C7: compile() does not create the output/modules directories -/

/-- Counterexample to claim C7: a `compile` run over an empty project
performs no directory creation at all — its only filesystem operation is
the graph write — so `compile` does not, as a first step or ever, ensure
that target-path and modules-path exist; that is `initialize`'s job, and
`compile` never invokes it. -/
theorem compile_no_dir_creation_cx :
    compileAll cEx [] [] [] =
      ([FsOp.writeGraph "target/graph-test.yml" Linker.empty], .ok (0, 0)) ∧
    FsOp.ensureDir cEx.targetPath ∉ (compileAll cEx [] [] []).1 ∧
    FsOp.ensureDir cEx.modulesPath ∉ (compileAll cEx [] [] []).1 := by
  decide

/-- Claim C7 (amended): directory creation lives in the separate
`initialize` method — which creates target-path and modules-path if
missing, and which `compile` does not invoke; a `compile` run with
nothing to compile performs no directory creation at all, its sole
filesystem operation being the graph write. -/
theorem initDirs_not_compile_ensures_dirs (c : Compiler) :
    initDirs c = [FsOp.ensureDir c.targetPath, FsOp.ensureDir c.modulesPath] ∧
    compileAll c [] [] [] =
      ([FsOp.writeGraph (pathJoin c.targetPath ("graph-" ++ c.label ++ ".yml"))
          Linker.empty],
       .ok (0, 0)) :=
  ⟨rfl, rfl⟩

/-! ## C9: edge endpoints use the rendered name, nodes the raw FQN -/

lemma find_ok_name (pool : List Model) (name : String) (ns : Option String) (m : Model)
    (h : findModelByName pool name ns = .ok m) : m.name = name ∧ m ∈ pool := by
  unfold findModelByName at h
  rcases hf : pool.filter (matchesRef name ns) with _ | ⟨m1, _ | ⟨m2, rest⟩⟩ <;> rw [hf] at h
  · exact absurd h (by simp)
  · simp only [Except.ok.injEq] at h
    subst h
    have hm : m1 ∈ pool.filter (matchesRef name ns) := by
      rw [hf]; exact List.mem_singleton.2 rfl
    have hmf := List.mem_filter.1 hm
    have hb := hmf.2
    simp only [matchesRef, Bool.and_eq_true, beq_iff_eq] at hb
    exact ⟨hb.1, hmf.1⟩
  · exact absurd h (by simp)

def cTmp : Compiler :=
  { schema := "s", modelName := fun s => s ++ "_tmp", label := "tmp",
    targetPath := "target", modulesPath := "modules" }

/-- Claim C9: a successful reference to model `m` registers an edge
whose endpoint for `m` is `m`'s FQN with the last segment replaced by
`create_template.model_name(m.name)`, while the node registered when `m`
itself is compiled is the raw `tuple(m.fqn)`; so whenever the naming
transform is not the identity on `m`'s name, the edge endpoint differs
from `m`'s own node. (`m.fqn = groups ++ [m.name]` states the data-model
invariant that an FQN terminates in the model's declared name.) -/
theorem ref_edge_rendered_name_mismatch (c : Compiler) (L L₀ : Linker) (src : Fqn)
    (pool : List Model) (a : RefArgs) (m : Model) (groups : List String)
    (hfqn : m.fqn = groups ++ [m.name])
    (hfind : findModelByName pool (refName a) (refNs a) = .ok m)
    (hne : c.modelName m.name ≠ m.name) :
    doRef c L src pool a =
      .ok (L.dependency src (groups ++ [c.modelName m.name]),
        refString c.schema (c.modelName m.name)) ∧
    groups ++ [c.modelName m.name] ≠ m.fqn ∧
    (truthy m.enabled = true → m.fqn ∈ (compileModel c L₀ m pool).1.nodes) := by
  have hname : m.name = refName a := (find_ok_name pool (refName a) (refNs a) m hfind).1
  have hd := doRef_of_found c L src pool a m hfind
  have hdrop : m.fqn.dropLast = groups := by rw [hfqn]; exact List.dropLast_concat
  refine ⟨?_, ?_, fun h => compileModel_fqn_mem c L₀ m pool h⟩
  · rw [← hname] at hd
    rw [hdrop] at hd
    exact hd
  · rw [hfqn]
    intro hc
    have := List.append_cancel_left hc
    simp only [List.cons.injEq, and_true] at this
    exact hne this

theorem ref_edge_rendered_name_mismatch_witness :
    doRef cTmp Linker.empty ["p1", "a"] [wB] (RefArgs.unqualified "b") =
      .ok (⟨[["p1", "a"], ["p1", "b_tmp"]], [(["p1", "b_tmp"], ["p1", "a"])]⟩,
        "\"s\".\"b_tmp\"") ∧
    ["p1"] ++ [cTmp.modelName wB.name] ≠ wB.fqn ∧
    wB.fqn ∈ (compileModel cTmp Linker.empty wB [wB]).1.nodes := by
  have h := ref_edge_rendered_name_mismatch cTmp Linker.empty Linker.empty ["p1", "a"]
    [wB] (RefArgs.unqualified "b") wB ["p1"] (by decide) (by decide) (by decide)
  exact ⟨h.1.trans (by decide), h.2.1, h.2.2 (by decide)⟩

/-! ## C8: topological ordering respects edges; cycles are errors -/

lemma kahnReady_false_of_edge (edges : List (Fqn × Fqn)) (rem : List Fqn)
    (u v : Fqn) (he : (u, v) ∈ edges) (hu : u ∈ rem) :
    kahnReady edges rem v = false := by
  simp only [kahnReady, Bool.not_eq_false', List.any_eq_true]
  exact ⟨(u, v), he, by simp [hu]⟩

lemma kahn_mem_of_rem (edges : List (Fqn × Fqn)) :
    ∀ (fuel : Nat) (rem order : List Fqn), kahn edges fuel rem = .ok order →
      ∀ v ∈ rem, v ∈ order := by
  intro fuel
  induction fuel with
  | zero =>
    intro rem order h v hv
    rw [kahn] at h
    split at h
    · rename_i hemp
      rw [List.isEmpty_iff] at hemp
      rw [hemp] at hv
      exact absurd hv (List.not_mem_nil v)
    · exact absurd h (by simp)
  | succ fuel ih =>
    intro rem order h v hv
    rw [kahn] at h
    split at h
    · rename_i hemp
      rw [List.isEmpty_iff] at hemp
      rw [hemp] at hv
      exact absurd hv (List.not_mem_nil v)
    · cases hw : rem.find? (kahnReady edges rem) with
      | none => rw [hw] at h; exact absurd h (by simp)
      | some w =>
        rw [hw] at h
        have h' : Except.map (fun order => w :: order) (kahn edges fuel (rem.erase w)) =
            Except.ok order := h
        cases hk : kahn edges fuel (rem.erase w) with
        | error e => rw [hk] at h'; exact absurd h' (by simp [Except.map])
        | ok rest =>
          rw [hk] at h'
          simp only [Except.map, Except.ok.injEq] at h'
          subst h'
          by_cases hvw : v = w
          · exact hvw ▸ List.mem_cons_self w rest
          · have hv' : v ∈ rem.erase w := (List.mem_erase_of_ne hvw).2 hv
            exact List.mem_cons_of_mem w (ih (rem.erase w) rest hk v hv')

lemma kahn_before (edges : List (Fqn × Fqn)) (u v : Fqn) (he : (u, v) ∈ edges) :
    ∀ (fuel : Nat) (rem order : List Fqn), kahn edges fuel rem = .ok order →
      u ∈ rem → v ∈ rem → [u, v].Sublist order := by
  intro fuel
  induction fuel with
  | zero =>
    intro rem order h hu _
    rw [kahn] at h
    split at h
    · rename_i hemp
      rw [List.isEmpty_iff] at hemp
      rw [hemp] at hu
      exact absurd hu (List.not_mem_nil u)
    · exact absurd h (by simp)
  | succ fuel ih =>
    intro rem order h hu hv
    rw [kahn] at h
    split at h
    · rename_i hemp
      rw [List.isEmpty_iff] at hemp
      rw [hemp] at hu
      exact absurd hu (List.not_mem_nil u)
    · cases hw : rem.find? (kahnReady edges rem) with
      | none => rw [hw] at h; exact absurd h (by simp)
      | some w =>
        rw [hw] at h
        have hready : kahnReady edges rem w = true := List.find?_some hw
        have hwv : w ≠ v := by
          intro hc
          subst hc
          have hf := kahnReady_false_of_edge edges rem u w he hu
          exact absurd (hf ▸ hready) (by simp)
        have h' : Except.map (fun order => w :: order) (kahn edges fuel (rem.erase w)) =
            Except.ok order := h
        cases hk : kahn edges fuel (rem.erase w) with
        | error e => rw [hk] at h'; exact absurd h' (by simp [Except.map])
        | ok rest =>
          rw [hk] at h'
          simp only [Except.map, Except.ok.injEq] at h'
          subst h'
          by_cases hwu : w = u
          · subst hwu
            have huv : v ≠ w := fun hc => hwv hc.symm
            have hv' : v ∈ rem.erase w := (List.mem_erase_of_ne huv).2 hv
            have hvrest : v ∈ rest := kahn_mem_of_rem edges fuel (rem.erase w) rest hk v hv'
            exact List.Sublist.cons₂ w (List.singleton_sublist.2 hvrest)
          · have hu' : u ∈ rem.erase w := (List.mem_erase_of_ne (fun hc => hwu hc.symm)).2 hu
            have hv' : v ∈ rem.erase w := (List.mem_erase_of_ne (fun hc => hwv hc.symm)).2 hv
            exact List.Sublist.cons w (ih (rem.erase w) rest hk hu' hv')

lemma kahn_trapped (edges : List (Fqn × Fqn)) (S : List Fqn) (hS : S ≠ [])
    (htrap : ∀ v ∈ S, ∃ u ∈ S, (u, v) ∈ edges) :
    ∀ (fuel : Nat) (rem : List Fqn), (∀ v ∈ S, v ∈ rem) →
      kahn edges fuel rem = .error .cyclicDependency := by
  have hSmem : ∃ s, s ∈ S := by
    cases S with
    | nil => exact absurd rfl hS
    | cons s t => exact ⟨s, List.mem_cons_self s t⟩
  intro fuel
  induction fuel with
  | zero =>
    intro rem hsub
    rw [kahn]
    split
    · rename_i hemp
      rw [List.isEmpty_iff] at hemp
      obtain ⟨s, hs⟩ := hSmem
      have hmem := hsub s hs
      rw [hemp] at hmem
      exact absurd hmem (List.not_mem_nil s)
    · rfl
  | succ fuel ih =>
    intro rem hsub
    rw [kahn]
    split
    · rename_i hemp
      rw [List.isEmpty_iff] at hemp
      obtain ⟨s, hs⟩ := hSmem
      have hmem := hsub s hs
      rw [hemp] at hmem
      exact absurd hmem (List.not_mem_nil s)
    · cases hw : rem.find? (kahnReady edges rem) with
      | none => rfl
      | some w =>
        have hready : kahnReady edges rem w = true := List.find?_some hw
        have hwS : w ∉ S := by
          intro hc
          obtain ⟨u, huS, hedge⟩ := htrap w hc
          have hf := kahnReady_false_of_edge edges rem u w hedge (hsub u huS)
          exact absurd (hf ▸ hready) (by simp)
        have hsub' : ∀ v ∈ S, v ∈ rem.erase w := by
          intro v hv
          have hvw : v ≠ w := by
            intro hc
            rw [hc] at hv
            exact hwS hv
          exact (List.mem_erase_of_ne hvw).2 (hsub v hv)
        show Except.map (fun order => w :: order) (kahn edges fuel (rem.erase w)) =
          .error .cyclicDependency
        rw [ih (rem.erase w) hsub']
        rfl

lemma cycle_trapped (edges : List (Fqn × Fqn)) (cyc : List Fqn) (h : IsCycle edges cyc) :
    ∀ v ∈ cyc, ∃ u ∈ cyc, (u, v) ∈ edges := by
  obtain ⟨hne, hedge⟩ := h
  intro v hv
  obtain ⟨j, hj⟩ := List.mem_iff_get.1 hv
  have hpos : 0 < cyc.length := j.pos
  have hE := hedge ⟨(j.val + (cyc.length - 1)) % cyc.length, Nat.mod_lt _ hpos⟩
  have hmod : ((j.val + (cyc.length - 1)) % cyc.length + 1) % cyc.length = j.val := by
    rw [Nat.mod_add_mod]
    have h2 : j.val + (cyc.length - 1) + 1 = j.val + cyc.length := by omega
    rw [h2, Nat.add_mod_right]
    exact Nat.mod_eq_of_lt j.isLt
  have hgoal : cyc.get ⟨((j.val + (cyc.length - 1)) % cyc.length + 1) % cyc.length,
      Nat.mod_lt _ (Fin.pos ⟨(j.val + (cyc.length - 1)) % cyc.length, Nat.mod_lt _ hpos⟩)⟩ = v := by
    rw [← hj]
    congr 1
    exact Fin.ext hmod
  refine ⟨cyc.get ⟨(j.val + (cyc.length - 1)) % cyc.length, Nat.mod_lt _ hpos⟩,
    List.get_mem cyc _ _, ?_⟩
  rw [hgoal] at hE
  exact hE

/-- Claim C8: for every graph and every directed edge u → v ("u must
come first"), a successful `as_dependency_list` over the whole graph —
or over any subset containing both u and v — places u before v; and when
the relevant nodes contain a directed cycle, `as_dependency_list` fails
with the cyclic-dependency error instead of returning an ordering. -/
theorem asDependencyList_topological :
    (∀ (L : Linker) (sub : Option (List Fqn)) (order : List Fqn) (u v : Fqn),
      asDependencyList L sub = .ok order → (u, v) ∈ L.edges →
      u ∈ sub.getD L.nodes → v ∈ sub.getD L.nodes → [u, v].Sublist order) ∧
    (∀ (L : Linker) (sub : Option (List Fqn)) (cyc : List Fqn),
      IsCycle L.edges cyc → (∀ x ∈ cyc, x ∈ sub.getD L.nodes) →
      asDependencyList L sub = .error .cyclicDependency) := by
  constructor
  · intro L sub order u v h he hu hv
    have he' : (u, v) ∈ restrictEdges L.edges (sub.getD L.nodes) := by
      unfold restrictEdges
      refine List.mem_filter.2 ⟨he, ?_⟩
      simp [hu, hv]
    unfold asDependencyList at h
    exact kahn_before _ u v he' _ _ order h hu hv
  · intro L sub cyc hcyc hsub
    have hne := hcyc.1
    have htrap : ∀ v ∈ cyc, ∃ u ∈ cyc,
        (u, v) ∈ restrictEdges L.edges (sub.getD L.nodes) := by
      have hbase := cycle_trapped L.edges cyc hcyc
      intro v hv
      obtain ⟨u, hu, hedge⟩ := hbase v hv
      refine ⟨u, hu, ?_⟩
      unfold restrictEdges
      refine List.mem_filter.2 ⟨hedge, ?_⟩
      simp [hsub u hu, hsub v hv]
    unfold asDependencyList
    exact kahn_trapped _ cyc hne htrap _ _ hsub

theorem asDependencyList_topological_witness :
    [["a"], ["b"]].Sublist [["a"], ["b"]] ∧
    asDependencyList ⟨[["a"], ["b"]], [(["a"], ["b"]), (["b"], ["a"])]⟩ none =
      .error .cyclicDependency := by
  constructor
  · exact asDependencyList_topological.1 ⟨[["a"], ["b"]], [(["a"], ["b"])]⟩ none
      [["a"], ["b"]] ["a"] ["b"] (by decide) (by decide) (by decide) (by decide)
  · exact asDependencyList_topological.2 ⟨[["a"], ["b"]], [(["a"], ["b"]), (["b"], ["a"])]⟩
      none [["a"], ["b"]] (by decide) (by decide)
